import Mathlib

set_option maxRecDepth 100000
set_option maxHeartbeats 1000000

/-!
Verification of `scripts/update_dev_config.py`.

The script rewrites Dart sources so that a fixed set of constant
identifiers is accessed through the `dev.` namespace.  Its core,
`process_constant_in_content`, applies four regex substitutions to a
file's content; file handling (`process_file`, `find_dart_files`,
`main`) is modelled below as pure functions over explicit inputs.

Content is modelled as `List Char`.  Each regex is hand-compiled to a
deterministic matcher (all the character classes involved are disjoint,
so the greedy matches of the original patterns are deterministic), and
`re.sub` / `re.finditer`-plus-splice are modelled by a single
left-to-right scan with word-boundary tracking, which agrees with the
non-overlapping leftmost semantics of the Python `re` module.
-/

/-- Characters matched by the regex class `\w` (ASCII). -/
def isWordChar (c : Char) : Bool := c.isAlphanum || c == '_'

/-- Characters matched by the regex class `\s` (ASCII). -/
def isSpaceChar (c : Char) : Bool :=
  c == ' ' || c == '\t' || c == '\n' || c == '\r' || c == '\x0b' || c == '\x0c'

/-- The character list of a string literal. -/
def cs (s : String) : List Char := s.data

/-- Python's substring test `needle in hay`. -/
def containsSub (hay needle : List Char) : Bool :=
  match hay with
  | [] => needle.isEmpty
  | c :: t => needle.isPrefixOf (c :: t) || containsSub t needle

/-- Python's `s.replace(pat, repl, 1)`: replace the first occurrence of
`pat` in `s` by `repl` (identity when `pat` does not occur). -/
def replaceFirstL (pat repl : List Char) : List Char → List Char
  | [] => if pat.isPrefixOf ([] : List Char) then repl else []
  | c :: t =>
    if pat.isPrefixOf (c :: t) then repl ++ (c :: t).drop pat.length
    else c :: replaceFirstL pat repl t

/-- Python's `s.endswith(suf)`. -/
def endsWithL (suf s : List Char) : Bool := suf.reverse.isPrefixOf s.reverse

/-- Matcher for pattern 1, `\bconst\s+(\w+)\s+(\w+)\s*=\s*K\s*;`, at the head
of `s` (the preceding word boundary is checked by the scanner).  On success
returns the replacement `final \1 \2 = dev.K;` and the rest of the input. -/
def try1 (K s : List Char) : Option (List Char × List Char) :=
  if (cs "const").isPrefixOf s then
    let s1 := s.drop 5
    let sp1 := s1.takeWhile isSpaceChar
    if sp1.isEmpty then none else
    let s2 := s1.dropWhile isSpaceChar
    let T := s2.takeWhile isWordChar
    if T.isEmpty then none else
    let s3 := s2.dropWhile isWordChar
    let sp2 := s3.takeWhile isSpaceChar
    if sp2.isEmpty then none else
    let s4 := s3.dropWhile isSpaceChar
    let n := s4.takeWhile isWordChar
    if n.isEmpty then none else
    let s5 := s4.dropWhile isWordChar
    let s6 := s5.dropWhile isSpaceChar
    match s6 with
    | '=' :: s7 =>
      let s8 := s7.dropWhile isSpaceChar
      if K.isPrefixOf s8 then
        let s9 := (s8.drop K.length).dropWhile isSpaceChar
        match s9 with
        | ';' :: rest =>
          some (cs "final " ++ T ++ ' ' :: n ++ cs " = dev." ++ K ++ [';'], rest)
        | _ => none
      else none
    | _ => none
  else none

/-- Matcher for pattern 2, `\bstatic\s+const\s+(\w+)\s+(\w+)\s*=\s*K\s*;`,
with replacement `static final \1 \2 = dev.K;`. -/
def try2 (K s : List Char) : Option (List Char × List Char) :=
  if (cs "static").isPrefixOf s then
    let s1 := s.drop 6
    let sp1 := s1.takeWhile isSpaceChar
    if sp1.isEmpty then none else
    let s2 := s1.dropWhile isSpaceChar
    if (cs "const").isPrefixOf s2 then
      let s3 := s2.drop 5
      let sp2 := s3.takeWhile isSpaceChar
      if sp2.isEmpty then none else
      let s4 := s3.dropWhile isSpaceChar
      let T := s4.takeWhile isWordChar
      if T.isEmpty then none else
      let s5 := s4.dropWhile isWordChar
      let sp3 := s5.takeWhile isSpaceChar
      if sp3.isEmpty then none else
      let s6 := s5.dropWhile isSpaceChar
      let n := s6.takeWhile isWordChar
      if n.isEmpty then none else
      let s7 := s6.dropWhile isWordChar
      let s8 := s7.dropWhile isSpaceChar
      match s8 with
      | '=' :: s9 =>
        let s10 := s9.dropWhile isSpaceChar
        if K.isPrefixOf s10 then
          let s11 := (s10.drop K.length).dropWhile isSpaceChar
          match s11 with
          | ';' :: rest =>
            some (cs "static final " ++ T ++ ' ' :: n ++ cs " = dev." ++ K ++ [';'], rest)
          | _ => none
        else none
      | _ => none
    else none
  else none

/-- Matcher for pattern 3, `\bconst\s+(\w+)\s*\([^)]*K[^)]*\)`.  The script
replaces each such match `m` by `m.replace('const ' + callee, callee, 1)`. -/
def try3 (K s : List Char) : Option (List Char × List Char) :=
  if (cs "const").isPrefixOf s then
    let s1 := s.drop 5
    let ws1 := s1.takeWhile isSpaceChar
    if ws1.isEmpty then none else
    let s2 := s1.dropWhile isSpaceChar
    let name := s2.takeWhile isWordChar
    if name.isEmpty then none else
    let s3 := s2.dropWhile isWordChar
    let ws2 := s3.takeWhile isSpaceChar
    let s4 := s3.dropWhile isSpaceChar
    match s4 with
    | '(' :: s5 =>
      let seg := s5.takeWhile (fun c => c != ')')
      let s6 := s5.dropWhile (fun c => c != ')')
      match s6 with
      | ')' :: rest =>
        if containsSub seg K then
          some (replaceFirstL (cs "const " ++ name) name
                  (cs "const" ++ ws1 ++ name ++ ws2 ++ '(' :: (seg ++ [')'])), rest)
        else none
      | _ => none
    | _ => none
  else none

/-- Matcher for pattern 4, `\bK\b(?![\w.])`, with replacement `dev.K`. -/
def try4 (K s : List Char) : Option (List Char × List Char) :=
  if K.isPrefixOf s then
    match s.drop K.length with
    | [] => some (cs "dev." ++ K, [])
    | c :: rest =>
      if isWordChar c || c == '.' then none
      else some (cs "dev." ++ K, c :: rest)
  else none

/-- Left-to-right scan implementing `re.sub`: at each position whose
preceding character admits a word boundary (`p = true`), attempt the
matcher; on a match emit the replacement and resume after the matched
text (`after` records whether the matched text ends in a non-word
character).  Fueled by the input length; every step consumes at least
one character, so the fuel never runs out on the initial call. -/
def scanGo (tf : List Char → List Char → Option (List Char × List Char))
    (after : Bool) (K : List Char) : Nat → Bool → List Char → List Char
  | 0, _, s => s
  | _ + 1, _, [] => []
  | f + 1, p, a :: t =>
    if p then
      match tf K (a :: t) with
      | some (repl, rest) => repl ++ scanGo tf after K f after rest
      | none => a :: scanGo tf after K f (! isWordChar a) t
    else a :: scanGo tf after K f (! isWordChar a) t

/-- Substitution pass for pattern 1 (matches end in `;`, a non-word char). -/
def sub1 (K s : List Char) : List Char := scanGo try1 true K s.length true s

/-- Substitution pass for pattern 2 (matches end in `;`). -/
def sub2 (K s : List Char) : List Char := scanGo try2 true K s.length true s

/-- Substitution pass for pattern 3 (matches end in `)`).  Replacing the
matches found by `finditer` from the last one backwards, as the script
does, equals replacing them during one left-to-right scan, since the
matches are non-overlapping and leftmost. -/
def sub3 (K s : List Char) : List Char := scanGo try3 true K s.length true s

/-- Substitution pass for pattern 4 (matches end in the last character of
`K`, a word character, so no new match can start right after one). -/
def sub4 (K s : List Char) : List Char := scanGo try4 false K s.length true s

/-- The script's `process_constant_in_content(content, constant)`:
short-circuit when `dev.K` already occurs or `K` does not occur, else
apply the four substitution passes in order; `changed` is the final
content compared with the original. -/
def process_constant_in_content (content K : List Char) : List Char × Bool :=
  if containsSub content (cs "dev." ++ K) then (content, false)
  else if ! containsSub content K then (content, false)
  else
    let c4 := sub4 K (sub3 K (sub2 K (sub1 K content)))
    (c4, c4 != content)

/-- The script's `CONSTANTS` registry, in source order. -/
def CONSTANTS : List (List Char) :=
  [cs "kFallbackTileEstimateKb", cs "kPreviewTileZoom", cs "kPreviewTileY", cs "kPreviewTileX",
   cs "kDirectionConeHalfAngle", cs "kDirectionConeBaseLength", cs "kDirectionConeColor",
   cs "kDirectionConeOpacity", cs "kBottomButtonBarOffset", cs "kButtonBarHeight",
   cs "kAttributionSpacingAboveButtonBar", cs "kZoomIndicatorSpacingAboveButtonBar",
   cs "kScaleBarSpacingAboveButtonBar", cs "kZoomControlsSpacingAboveButtonBar",
   cs "kClientName", cs "kSuspectedLocationsCsvUrl", cs "kEnableDevelopmentModes",
   cs "kEnableNodeEdits", cs "kEnableNodeExtraction", cs "kNodeMinZoomLevel",
   cs "kOsmApiMinZoomLevel", cs "kMarkerTapTimeout", cs "kDebounceCameraRefresh",
   cs "kPreFetchAreaExpansionMultiplier", cs "kPreFetchZoomLevel", cs "kMaxPreFetchSplitDepth",
   cs "kDataRefreshIntervalSeconds", cs "kFollowMeAnimationDuration", cs "kMinSpeedForRotationMps",
   cs "kProximityAlertDefaultDistance", cs "kProximityAlertMinDistance",
   cs "kProximityAlertMaxDistance", cs "kProximityAlertCooldown", cs "kNodeDoubleTapZoomDelta",
   cs "kScrollWheelVelocity", cs "kPinchZoomThreshold", cs "kPinchMoveThreshold",
   cs "kRotationThreshold", cs "kTileFetchMaxAttempts", cs "kTileFetchInitialDelayMs",
   cs "kTileFetchBackoffMultiplier", cs "kTileFetchMaxDelayMs", cs "kTileFetchRandomJitterMs",
   cs "kMaxUserDownloadZoomSpan", cs "kMaxReasonableTileCount", cs "kAbsoluteMaxTileCount",
   cs "kAbsoluteMaxZoom", cs "kNodeIconDiameter", cs "kNodeDotOpacity", cs "kNodeRingColorReal",
   cs "kNodeRingColorMock", cs "kNodeRingColorPending", cs "kNodeRingColorEditing",
   cs "kNodeRingColorPendingEdit", cs "kNodeRingColorPendingDeletion",
   cs "kDirectionButtonMinWidth", cs "kDirectionButtonMinHeight"]

/-- The content transformation of the script's `process_file`: fold
`process_constant_in_content` over the registry, collecting the constants
that reported a change. -/
def process_file_content (content : List Char) : List Char × List (List Char) :=
  CONSTANTS.foldl
    (fun acc K =>
      let r := process_constant_in_content acc.1 K
      (r.1, if r.2 then acc.2 ++ [K] else acc.2))
    (content, [])

/-- Model of the script's `process_file`.  The read result is `none` when
reading raised; `writeOk` is whether a write attempt would succeed.
Returns the function's boolean result, whether a write was attempted,
and the content written (if any). -/
def process_file (readRes : Option (List Char)) (writeOk : Bool) :
    Bool × Bool × Option (List Char) :=
  match readRes with
  | none => (false, false, none)
  | some content =>
    let r := process_file_content content
    if r.1 != content then
      if writeOk then (true, true, some r.1) else (false, true, none)
    else (false, false, none)

/-- Model of the script's `find_dart_files`: the walk is given as the list
of `(root, files)` pairs produced by `os.walk`, a joined path being
`root ++ '/' ++ file`.  A file is kept when its name ends in `.dart` and
its joined path does not contain the substring `dev_config.dart`. -/
def find_dart_files (walk : List (List Char × List (List Char))) : List (List Char) :=
  walk.foldl
    (fun acc rd =>
      rd.2.foldl
        (fun acc2 file =>
          if endsWithL (cs ".dart") file then
            let path := rd.1 ++ '/' :: file
            if ! containsSub path (cs "dev_config.dart") then acc2 ++ [path] else acc2
          else acc2)
        acc)
    []

/-- The count of updated files accumulated by the loop in `main`; each
element of `files` is a (read result, write success) pair. -/
def main_run (files : List (Option (List Char) × Bool)) : Nat :=
  files.foldl (fun nacc fw => if (process_file fw.1 fw.2).1 then nacc + 1 else nacc) 0

/-- Model of `main`'s reporting: `none` when no files were found (the
function prints a no-files notice and returns before the final summary),
otherwise the final summary pair (updated count, file count). -/
def main_output (files : List (Option (List Char) × Bool)) : Option (Nat × Nat) :=
  if files.isEmpty then none else some (main_run files, files.length)

/-! ### Basic list lemmas -/

theorem isPrefixOf_iff_exists : ∀ (l s : List Char), l.isPrefixOf s = true ↔ ∃ t, s = l ++ t
  | [], s => by simp [List.isPrefixOf]
  | a :: l, [] => by simp [List.isPrefixOf]
  | a :: l, b :: s => by
    simp only [List.isPrefixOf, Bool.and_eq_true, beq_iff_eq, List.cons_append, List.cons.injEq]
    rw [isPrefixOf_iff_exists l s]
    constructor
    · rintro ⟨rfl, t, rfl⟩
      exact ⟨t, rfl, rfl⟩
    · rintro ⟨t, rfl, rfl⟩
      exact ⟨rfl, t, rfl⟩

theorem containsSub_iff_exists :
    ∀ (hay nd : List Char), containsSub hay nd = true ↔ ∃ u v, hay = u ++ nd ++ v
  | [], nd => by
    simp only [containsSub, List.isEmpty_iff]
    constructor
    · rintro rfl
      exact ⟨[], [], rfl⟩
    · rintro ⟨u, v, h⟩
      rcases List.append_eq_nil.mp h.symm with ⟨h1, h2⟩
      rcases List.append_eq_nil.mp h1 with ⟨_, rfl⟩
      rfl
  | c :: t, nd => by
    simp only [containsSub, Bool.or_eq_true]
    rw [isPrefixOf_iff_exists, containsSub_iff_exists t nd]
    constructor
    · rintro (⟨v, hv⟩ | ⟨u, v, rfl⟩)
      · exact ⟨[], v, by simpa using hv⟩
      · exact ⟨c :: u, v, by simp⟩
    · rintro ⟨u, v, huv⟩
      cases u with
      | nil => exact Or.inl ⟨v, by simpa using huv⟩
      | cons a u =>
        rcases List.cons.injEq _ _ _ _ ▸ huv with ⟨rfl, rfl⟩
        exact Or.inr ⟨u, v, rfl⟩

theorem containsSub_parts (u nd v : List Char) : containsSub (u ++ nd ++ v) nd = true :=
  (containsSub_iff_exists _ _).mpr ⟨u, v, rfl⟩

theorem containsSub_of_append {v nd : List Char} (u : List Char)
    (h : containsSub v nd = true) : containsSub (u ++ v) nd = true := by
  rcases (containsSub_iff_exists _ _).mp h with ⟨x, y, rfl⟩
  exact (containsSub_iff_exists _ _).mpr ⟨u ++ x, y, by simp⟩

theorem containsSub_of_drop {s nd : List Char} {n : Nat}
    (h : containsSub (s.drop n) nd = true) : containsSub s nd = true := by
  have hd : s = s.take n ++ s.drop n := (List.take_append_drop n s).symm
  rw [hd]
  exact containsSub_of_append _ h

theorem containsSub_of_dropWhile {s nd : List Char} {p : Char → Bool}
    (h : containsSub (s.dropWhile p) nd = true) : containsSub s nd = true := by
  have hd : s = s.takeWhile p ++ s.dropWhile p := (List.takeWhile_append_dropWhile ..).symm
  rw [hd]
  exact containsSub_of_append _ h

/-! ### Scanner step lemmas -/

theorem scanGo_zero (tf : List Char → List Char → Option (List Char × List Char))
    (after : Bool) (K : List Char) (p : Bool) (s : List Char) :
    scanGo tf after K 0 p s = s := rfl

theorem scanGo_succ_nil (tf : List Char → List Char → Option (List Char × List Char))
    (after : Bool) (K : List Char) (f : Nat) (p : Bool) :
    scanGo tf after K (f + 1) p [] = [] := rfl

theorem scanGo_match {tf : List Char → List Char → Option (List Char × List Char)}
    {after : Bool} {K : List Char} {f : Nat} {a : Char} {t repl rest : List Char}
    (h : tf K (a :: t) = some (repl, rest)) :
    scanGo tf after K (f + 1) true (a :: t) = repl ++ scanGo tf after K f after rest := by
  simp [scanGo, h]

theorem scanGo_nomatch {tf : List Char → List Char → Option (List Char × List Char)}
    {after : Bool} {K : List Char} {f : Nat} {a : Char} {t : List Char}
    (h : tf K (a :: t) = none) :
    scanGo tf after K (f + 1) true (a :: t) = a :: scanGo tf after K f (! isWordChar a) t := by
  simp [scanGo, h]

theorem scanGo_neg (tf : List Char → List Char → Option (List Char × List Char))
    (after : Bool) (K : List Char) (f : Nat) (a : Char) (t : List Char) :
    scanGo tf after K (f + 1) false (a :: t) = a :: scanGo tf after K f (! isWordChar a) t := by
  simp [scanGo]

/-- A scan whose matcher fires on no suffix of the input copies it verbatim. -/
theorem scanGo_id {tf : List Char → List Char → Option (List Char × List Char)}
    {after : Bool} {K : List Char} :
    ∀ (f : Nat) (p : Bool) (s : List Char),
      (∀ u v, s = u ++ v → tf K v = none) → scanGo tf after K f p s = s := by
  intro f
  induction f with
  | zero => intro p s _; rfl
  | succ f ih =>
    intro p s h
    cases s with
    | nil => rfl
    | cons a t =>
      have hnone : tf K (a :: t) = none := h [] (a :: t) rfl
      have ht : ∀ u v, t = u ++ v → tf K v = none := fun u v huv => h (a :: u) v (by simp [huv])
      cases p with
      | true => rw [scanGo_nomatch hnone, ih _ t ht]
      | false => rw [scanGo_neg, ih _ t ht]

/-! ### Matcher facts -/

theorem try1_none_of_noconst {K s : List Char}
    (h : (cs "const").isPrefixOf s = false) : try1 K s = none := by
  simp [try1, h]

theorem try3_none_of_noconst {K s : List Char}
    (h : (cs "const").isPrefixOf s = false) : try3 K s = none := by
  simp [try3, h]

theorem try2_none_of_noconst {K s : List Char}
    (h : containsSub s (cs "const") = false) : try2 K s = none := by
  cases h6 : (cs "static").isPrefixOf s with
  | false => simp [try2, h6]
  | true =>
    have hc : (cs "const").isPrefixOf ((s.drop 6).dropWhile isSpaceChar) = false := by
      cases hx : (cs "const").isPrefixOf ((s.drop 6).dropWhile isSpaceChar) with
      | false => rfl
      | true =>
        obtain ⟨t, ht⟩ := (isPrefixOf_iff_exists _ _).mp hx
        have h1 : containsSub ((s.drop 6).dropWhile isSpaceChar) (cs "const") = true :=
          (containsSub_iff_exists _ _).mpr ⟨[], t, by simp [ht]⟩
        have h3 : containsSub s (cs "const") = true :=
          containsSub_of_drop (containsSub_of_dropWhile h1)
        rw [h3] at h
        exact absurd h (by simp)
    simp [try2, h6, hc]

/-! ### C6: short-circuit checks -/

/-- C6 — if the content already contains `dev.K`, or does not contain `K` at
all, the engine returns the content unchanged with `changed = false`. -/
theorem c6_short_circuit (c K : List Char)
    (h : containsSub c (cs "dev." ++ K) = true ∨ containsSub c K = false) :
    process_constant_in_content c K = (c, false) := by
  unfold process_constant_in_content
  rcases h with h | h
  · simp [h]
  · cases h2 : containsSub c (cs "dev." ++ K) with
    | true => simp [h2]
    | false => simp [h2, h]

/-- C6 witness: a concrete content containing `dev.kClientName` is returned
unchanged (even though a second, bare occurrence remains). -/
theorem c6_short_circuit_witness :
    process_constant_in_content (cs "a dev.kClientName; kClientName;") (cs "kClientName")
    = (cs "a dev.kClientName; kClientName;", false) :=
  c6_short_circuit _ _ (Or.inl (by decide))

/-! ### C7: orchestrator write-back condition -/

/-- C7 — the orchestrator attempts a write exactly when the content after the
full pass differs from the content read, and the only content it can write is
that final content (one write at most, taken when the attempt succeeds). -/
theorem c7_write_iff_changed (c : List Char) (w : Bool) :
    (process_file (some c) w).2.1 = ((process_file_content c).1 != c) ∧
    (process_file (some c) w).2.2 =
      (if ((process_file_content c).1 != c) && w then some (process_file_content c).1
       else none) := by
  unfold process_file
  cases hb : (process_file_content c).1 != c with
  | false => simp [hb]
  | true => cases w <;> simp [hb]

/-! ### Pattern-4 matcher characterization -/

theorem try4_eq_some {K s : List Char} {x : List Char × List Char} (h : try4 K s = some x) :
    ∃ rest, s = K ++ rest ∧ x = (cs "dev." ++ K, rest) ∧
      (rest = [] ∨ ∃ c r', rest = c :: r' ∧ isWordChar c = false ∧ c ≠ '.') := by
  unfold try4 at h
  cases hp : K.isPrefixOf s with
  | false => simp [hp] at h
  | true =>
    obtain ⟨t, rfl⟩ := (isPrefixOf_iff_exists _ _).mp hp
    simp only [hp, if_true, List.drop_left] at h
    cases t with
    | nil =>
      simp only [Option.some.injEq] at h
      exact ⟨[], rfl, h.symm, Or.inl rfl⟩
    | cons c r' =>
      have h' : (if (isWordChar c || c == '.') = true then none
                 else some (cs "dev." ++ K, c :: r')) = some x := h
      cases hw : isWordChar c with
      | true => simp [hw] at h'
      | false =>
        cases hd : c == '.' with
        | true => simp [hw, hd] at h'
        | false =>
          rw [hw, hd, Bool.or_self, if_neg Bool.false_ne_true] at h'
          injection h' with h'
          exact ⟨c :: r', rfl, h'.symm, Or.inr ⟨c, r', rfl, hw, by simpa using hd⟩⟩

/-- The pattern-4 scan leaves content unchanged when every occurrence of `K`
is shielded: preceded by a word character, followed by a word character or a
dot, or at the very start with the scanner's boundary flag off. -/
theorem scan4_id {K : List Char} :
    ∀ (f : Nat) (p : Bool) (s : List Char),
      (∀ u v, s = u ++ K ++ v →
        (u = [] ∧ p = false) ∨
        (∃ u' a, u = u' ++ [a] ∧ isWordChar a = true) ∨
        (∃ a v', v = a :: v' ∧ (isWordChar a = true ∨ a = '.'))) →
      scanGo try4 false K f p s = s := by
  intro f
  induction f with
  | zero => intro p s _; rfl
  | succ f ih =>
    intro p s h
    cases s with
    | nil => rfl
    | cons a t =>
      have ht : ∀ u v, t = u ++ K ++ v →
          (u = [] ∧ (! isWordChar a) = false) ∨
          (∃ u' b, u = u' ++ [b] ∧ isWordChar b = true) ∨
          (∃ b v', v = b :: v' ∧ (isWordChar b = true ∨ b = '.')) := by
        intro u v huv
        rcases h (a :: u) v (by simp [huv]) with ⟨habs, _⟩ | ⟨u', b, hub, hb⟩ | hv
        · exact absurd habs (by simp)
        · cases u' with
          | nil =>
            obtain ⟨rfl, rfl⟩ : a = b ∧ u = [] := by simpa using hub
            exact Or.inl ⟨rfl, by simp [hb]⟩
          | cons x u'' =>
            obtain ⟨rfl, rfl⟩ : a = x ∧ u = u'' ++ [b] := by simpa using hub
            exact Or.inr (Or.inl ⟨u'', b, rfl, hb⟩)
        · exact Or.inr (Or.inr hv)
      cases p with
      | false => rw [scanGo_neg, ih _ t ht]
      | true =>
        cases htry : try4 K (a :: t) with
        | none => rw [scanGo_nomatch htry, ih _ t ht]
        | some x =>
          obtain ⟨rest, hs, _, hnext⟩ := try4_eq_some htry
          rcases h [] rest (by simpa using hs) with ⟨_, hpf⟩ | ⟨u', b, habs, _⟩ | ⟨b, v', hv, hb⟩
          · exact absurd hpf (by simp)
          · exact absurd habs (by simp)
          · rcases hnext with rfl | ⟨c, r', hr, hw, hd⟩
            · exact absurd hv (by simp)
            · rw [hr] at hv
              obtain ⟨rfl, rfl⟩ : c = b ∧ r' = v' := by simpa using hv
              rcases hb with hb | rfl
              · rw [hb] at hw; exact absurd hw (by simp)
              · exact absurd rfl hd

/-! ### Loose occurrences, decidably -/

/-- There is a match-shaped occurrence of `K` at the head of `s`: `K` is a
prefix and the next character (if any) is not a word character. -/
def looseAt (K s : List Char) : Bool :=
  K.isPrefixOf s &&
    (match s.drop K.length with
     | [] => true
     | c :: _ => ! isWordChar c)

/-- Scan for an occurrence of `K` that is neither preceded (tracked by `pw`)
nor followed by a word character. -/
def hasLooseGo (K : List Char) : Bool → List Char → Bool
  | _, [] => false
  | pw, a :: t => ((! pw) && looseAt K (a :: t)) || hasLooseGo K (isWordChar a) t

/-- `s` contains an occurrence of `K` not adjacent to any word character. -/
def hasLoose (K s : List Char) : Bool := hasLooseGo K false s

theorem hasLooseGo_eq_false {K : List Char} (hK : K ≠ []) :
    ∀ (s : List Char) (pw : Bool), hasLooseGo K pw s = false →
      ∀ u v, s = u ++ K ++ v →
        (u = [] ∧ pw = true) ∨ (∃ u' a, u = u' ++ [a] ∧ isWordChar a = true) ∨
        (∃ a v', v = a :: v' ∧ isWordChar a = true) := by
  intro s
  induction s with
  | nil =>
    intro pw _ u v huv
    have : K = [] := by
      rcases List.append_eq_nil.mp huv.symm with ⟨h1, _⟩
      exact (List.append_eq_nil.mp h1).2
    exact absurd this hK
  | cons a t ih =>
    intro pw h u v huv
    have h1 : ((! pw) && looseAt K (a :: t)) = false ∧ hasLooseGo K (isWordChar a) t = false := by
      simpa [hasLooseGo, Bool.or_eq_false_iff] using h
    cases u with
    | nil =>
      simp only [List.nil_append] at huv
      have hpre : K.isPrefixOf (a :: t) = true := (isPrefixOf_iff_exists _ _).mpr ⟨v, huv⟩
      cases v with
      | nil =>
        have hl : looseAt K (a :: t) = true := by
          simp [looseAt, hpre, huv, List.drop_left]
        have : pw = true := by
          rcases Bool.and_eq_false_iff.mp h1.1 with hp | hx
          · simpa using hp
          · rw [hl] at hx; exact absurd hx (by simp)
        exact Or.inl ⟨rfl, this⟩
      | cons b v' =>
        cases hw : isWordChar b with
        | true => exact Or.inr (Or.inr ⟨b, v', rfl, hw⟩)
        | false =>
          have hl : looseAt K (a :: t) = true := by
            simp [looseAt, hpre, huv, List.drop_left, hw]
          have : pw = true := by
            rcases Bool.and_eq_false_iff.mp h1.1 with hp | hx
            · simpa using hp
            · rw [hl] at hx; exact absurd hx (by simp)
          exact Or.inl ⟨rfl, this⟩
    | cons x u' =>
      obtain ⟨rfl, ht⟩ : a = x ∧ t = u' ++ K ++ v := by simpa using huv
      rcases ih (isWordChar a) h1.2 u' v ht with ⟨rfl, hpa⟩ | hmid | hright
      · exact Or.inr (Or.inl ⟨[], a, rfl, hpa⟩)
      · obtain ⟨u'', b, rfl, hb⟩ := hmid
        exact Or.inr (Or.inl ⟨a :: u'', b, rfl, hb⟩)
      · exact Or.inr (Or.inr hright)

/-! ### C1: declaration demotion at the example input -/

/-- C1 — at the claimed input the engine demotes `const` to `final` but then
qualifies the already-qualified initializer a second time, producing
`dev.dev.kDirectionConeHalfAngle` instead of the claimed single
qualification (the bare-usage rule's guard looks at the following
characters only, so it re-matches the identifier inside `dev.…`). -/
theorem c1_double_qualification_bug :
    process_constant_in_content (cs "const int kFoo = kDirectionConeHalfAngle;")
      (cs "kDirectionConeHalfAngle")
    = (cs "final int kFoo = dev.dev.kDirectionConeHalfAngle;", true) := by decide

/-! ### C2: idempotence fails on overlapping construction sites -/

/-- C2 — the engine is not idempotent: on
`const const A(kPreviewTileZoom.b);` the first application removes one
`const` (construction-site rule) without introducing `dev.kPreviewTileZoom`
(the occurrence is dot-followed, so the bare-usage rule skips it), and the
second application changes the content again, so the second application
reports `changed = true` where the claim requires `false`. -/
theorem c2_idempotence_bug :
    process_constant_in_content (cs "const const A(kPreviewTileZoom.b);") (cs "kPreviewTileZoom")
      = (cs "const A(kPreviewTileZoom.b);", true) ∧
    process_constant_in_content (cs "const A(kPreviewTileZoom.b);") (cs "kPreviewTileZoom")
      = (cs "A(kPreviewTileZoom.b);", true) := by decide

/-! ### C4: word-boundary correctness -/

/-- C4 counterexample — running the engine for `kNodeRingColorPending` on
content whose only occurrence of it lies inside the longer identifier
`kNodeRingColorPendingEdit` (no loose occurrence, as the third conjunct
records) still alters the content: the construction-site rule tests the
argument list by substring, not whole-word, and strips the `const`. -/
theorem c4_substring_counterexample :
    process_constant_in_content (cs "const C(kNodeRingColorPendingEdit)")
      (cs "kNodeRingColorPending")
      = (cs "C(kNodeRingColorPendingEdit)", true) ∧
    hasLoose (cs "kNodeRingColorPending") (cs "const C(kNodeRingColorPendingEdit)") = false := by
  decide

/-- C4 amended — outside construction sites the rules are word-bounded: if
the content contains no `const` token (so the construction-site and
declaration rules cannot fire) and every occurrence of the identifier is
adjacent to a word character (it lies inside a longer identifier), the
engine returns the content unchanged with `changed = false`. -/
theorem c4_word_boundary_amended (c K : List Char) (hK : K ≠ [])
    (hconst : containsSub c (cs "const") = false)
    (hloose : hasLoose K c = false) :
    process_constant_in_content c K = (c, false) := by
  unfold process_constant_in_content
  cases h1 : containsSub c (cs "dev." ++ K) with
  | true => simp [h1]
  | false =>
    cases h2 : containsSub c K with
    | false => simp [h1, h2]
    | true =>
      have hpfx : ∀ u v, c = u ++ v → (cs "const").isPrefixOf v = false := by
        intro u v huv
        cases hx : (cs "const").isPrefixOf v with
        | false => rfl
        | true =>
          obtain ⟨t, rfl⟩ := (isPrefixOf_iff_exists _ _).mp hx
          have hcc : containsSub c (cs "const") = true := by
            rw [huv]
            exact containsSub_of_append u ((containsSub_iff_exists _ _).mpr ⟨[], t, by simp⟩)
          rw [hcc] at hconst
          exact absurd hconst (by simp)
      have hsfx : ∀ u v, c = u ++ v → containsSub v (cs "const") = false := by
        intro u v huv
        cases hx : containsSub v (cs "const") with
        | false => rfl
        | true =>
          have hcc : containsSub c (cs "const") = true := huv ▸ containsSub_of_append u hx
          rw [hcc] at hconst
          exact absurd hconst (by simp)
      have hs1 : sub1 K c = c := scanGo_id _ _ _ fun u v huv => try1_none_of_noconst (hpfx u v huv)
      have hs2 : sub2 K c = c := scanGo_id _ _ _ fun u v huv => try2_none_of_noconst (hsfx u v huv)
      have hs3 : sub3 K c = c := scanGo_id _ _ _ fun u v huv => try3_none_of_noconst (hpfx u v huv)
      have hs4 : sub4 K c = c := by
        apply scan4_id
        intro u v huv
        rcases hasLooseGo_eq_false hK c false hloose u v huv with ⟨_, habs⟩ | hmid | hright
        · exact absurd habs (by simp)
        · exact Or.inr (Or.inl hmid)
        · obtain ⟨a, v', hv, hw⟩ := hright
          exact Or.inr (Or.inr ⟨a, v', hv, Or.inl hw⟩)
      simp [h1, h2, hs1, hs2, hs3, hs4]

/-- C4 amended witness at a concrete input whose only occurrence of the
identifier sits inside a longer identifier. -/
theorem c4_word_boundary_amended_witness :
    process_constant_in_content (cs "x kNodeRingColorPendingEdit;")
      (cs "kNodeRingColorPending")
    = (cs "x kNodeRingColorPendingEdit;", false) :=
  c4_word_boundary_amended _ _ (by decide) (by decide) (by decide)

/-! ### Guardedness of the pattern-4 scan -/

theorem cs_dev : cs "dev." = ['d', 'e', 'v', '.'] := rfl

/-- Splitting `ws ++ '.' :: tail` (with `ws` all word characters) after a
nonempty all-word block `w`: the remainder starts with a word character or
with the dot. -/
theorem allword_block_split {ws : List Char} :
    ∀ {tail w r : List Char}, (∀ c ∈ ws, isWordChar c = true) →
      (∀ c ∈ w, isWordChar c = true) → w ≠ [] →
      ws ++ '.' :: tail = w ++ r →
      ∃ c r', r = c :: r' ∧ (isWordChar c = true ∨ c = '.') := by
  induction ws with
  | nil =>
    intro tail w r _ hw hne h
    cases w with
    | nil => exact absurd rfl hne
    | cons b w' =>
      obtain ⟨rfl, _⟩ : '.' = b ∧ tail = w' ++ r := by simpa using h
      have : isWordChar '.' = true := hw '.' (by simp)
      exact absurd this (by decide)
  | cons c0 ws' ih =>
    intro tail w r hws hw hne h
    cases w with
    | nil => exact absurd rfl hne
    | cons b w' =>
      obtain ⟨rfl, h2⟩ : c0 = b ∧ ws' ++ '.' :: tail = w' ++ r := by simpa using h
      cases w' with
      | nil =>
        cases ws' with
        | nil => exact ⟨'.', tail, by simpa using h2.symm, Or.inr rfl⟩
        | cons c1 ws'' =>
          exact ⟨c1, ws'' ++ '.' :: tail, by simpa using h2.symm,
            Or.inl (hws c1 (by simp))⟩
      | cons b2 w'' =>
        exact ih (fun c hc => hws c (by simp [hc])) (fun c hc => hw c (by simp [hc]))
          (by simp) h2

/-- If the output of the pattern-4 scan starts with a nonempty all-word block
`w`, then either `w` was copied verbatim from the input (and the remainder of
the output is the scan of the corresponding remainder of the input, with the
boundary flag off), or the block ran into an inserted `dev.` and the
remainder starts with a word character or a dot. -/
theorem scan4_block {K : List Char} :
    ∀ (w : List Char), w ≠ [] → (∀ c ∈ w, isWordChar c = true) →
      ∀ (f : Nat) (p : Bool) (s r : List Char),
        scanGo try4 false K f p s = w ++ r →
        (∃ s', s = w ++ s' ∧ r = scanGo try4 false K (f - w.length) false s') ∨
        (∃ c r', r = c :: r' ∧ (isWordChar c = true ∨ c = '.')) := by
  intro w
  induction w with
  | nil => intro hne _; exact absurd rfl hne
  | cons b w' ih =>
    intro _ hall f p s r hout
    have hbw : isWordChar b = true := hall b (by simp)
    have hall' : ∀ c ∈ w', isWordChar c = true := fun c hc => hall c (by simp [hc])
    cases f with
    | zero =>
      rw [scanGo_zero] at hout
      exact Or.inl ⟨r, hout, by rw [Nat.zero_sub, scanGo_zero]⟩
    | succ f =>
      cases s with
      | nil =>
        rw [scanGo_succ_nil] at hout
        exact absurd hout.symm (by simp)
      | cons a t =>
        have copy_case :
            a = b → scanGo try4 false K f (! isWordChar a) t = w' ++ r →
            (∃ s', a :: t = (b :: w') ++ s' ∧
              r = scanGo try4 false K (f + 1 - (b :: w').length) false s') ∨
            (∃ c r', r = c :: r' ∧ (isWordChar c = true ∨ c = '.')) := by
          intro hab hout2
          subst hab
          cases w' with
          | nil =>
            refine Or.inl ⟨t, by simp, ?_⟩
            rw [List.nil_append] at hout2
            rw [← hout2]
            have hba : (! isWordChar a) = false := by rw [hbw]; rfl
            have hf : f + 1 - [a].length = f := by simp
            rw [hba, hf]
          | cons b2 w2 =>
            rcases ih (by simp) hall' f (! isWordChar a) t r hout2 with hcopy | hrun
            · obtain ⟨s', hts, hr⟩ := hcopy
              refine Or.inl ⟨s', by simp [hts], ?_⟩
              rw [hr]
              congr 1
              simp [Nat.succ_sub_succ]
            · exact Or.inr hrun
        cases p with
        | false =>
          rw [scanGo_neg] at hout
          obtain ⟨hab, hout2⟩ : a = b ∧ scanGo try4 false K f (! isWordChar a) t = w' ++ r := by
            simpa using hout
          exact copy_case hab hout2
        | true =>
          cases htry : try4 K (a :: t) with
          | none =>
            rw [scanGo_nomatch htry] at hout
            obtain ⟨hab, hout2⟩ : a = b ∧ scanGo try4 false K f (! isWordChar a) t = w' ++ r := by
              simpa using hout
            exact copy_case hab hout2
          | some x =>
            obtain ⟨rest, hs, hx, _⟩ := try4_eq_some htry
            subst hx
            rw [scanGo_match htry] at hout
            have hout' : (['d', 'e', 'v'] : List Char) ++ '.' ::
                (K ++ scanGo try4 false K f false rest) = (b :: w') ++ r := by
              rw [← hout, cs_dev]
              simp
            exact Or.inr (allword_block_split (by decide) hall (by simp) hout')

theorem try4_some_of {K rest : List Char}
    (h : rest = [] ∨ ∃ c r', rest = c :: r' ∧ isWordChar c = false ∧ c ≠ '.') :
    try4 K (K ++ rest) = some (cs "dev." ++ K, rest) := by
  have hp : K.isPrefixOf (K ++ rest) = true := (isPrefixOf_iff_exists _ _).mpr ⟨rest, rfl⟩
  rcases h with rfl | ⟨c, r', rfl, hw, hd⟩
  · simp [try4, hp]
  · simp [try4, hp, List.drop_left, hw, hd]

/-- Guardedness of the pattern-4 scan: in its output, every occurrence of a
nonempty all-word `K` is preceded by a word character or by `dev.`, or is
followed by a word character or a dot — except possibly at the very start
when the boundary flag is off. -/
theorem scan4_guarded {K : List Char} (hK : K ≠ [])
    (hKw : ∀ c ∈ K, isWordChar c = true) :
    ∀ (f : Nat) (p : Bool) (s : List Char), s.length ≤ f →
      ∀ u v, scanGo try4 false K f p s = u ++ K ++ v →
        (u = [] ∧ p = false) ∨
        (∃ u', u = u' ++ cs "dev.") ∨
        (∃ u' a, u = u' ++ [a] ∧ isWordChar a = true) ∨
        (∃ v', v = '.' :: v') ∨
        (∃ a v', v = a :: v' ∧ isWordChar a = true) := by
  intro f
  induction f with
  | zero =>
    intro p s hlen u v hout
    have hs : s = [] := List.length_eq_zero.mp (Nat.le_zero.mp hlen)
    subst hs
    rw [scanGo_zero] at hout
    exact absurd hout.symm (by simp [List.append_eq_nil, hK])
  | succ f ih =>
    intro p s hlen u v hout
    cases s with
    | nil =>
      rw [scanGo_succ_nil] at hout
      exact absurd hout.symm (by simp [List.append_eq_nil, hK])
    | cons a t =>
      have hlent : t.length ≤ f := by simpa using hlen
      have step_cons : ∀ x u', u = x :: u' → a = x →
          scanGo try4 false K f (! isWordChar a) t = u' ++ K ++ v →
          ((u = [] ∧ p = false) ∨ (∃ w', u = w' ++ cs "dev.") ∨
           (∃ w' b, u = w' ++ [b] ∧ isWordChar b = true) ∨
           (∃ v', v = '.' :: v') ∨ (∃ b v', v = b :: v' ∧ isWordChar b = true)) := by
        intro x u' hu hax hout2
        subst hax
        subst hu
        rcases ih (! isWordChar a) t hlent u' v hout2 with
          ⟨rfl, hpf⟩ | ⟨u'', hu2⟩ | ⟨u'', b, hu2, hb⟩ | hdot | hwd
        · have haw : isWordChar a = true := by
            cases hw : isWordChar a with
            | true => rfl
            | false => rw [hw] at hpf; exact absurd hpf (by decide)
          exact Or.inr (Or.inr (Or.inl ⟨[], a, rfl, haw⟩))
        · exact Or.inr (Or.inl ⟨a :: u'', by rw [hu2]; rfl⟩)
        · exact Or.inr (Or.inr (Or.inl ⟨a :: u'', b, by rw [hu2]; rfl, hb⟩))
        · exact Or.inr (Or.inr (Or.inr (Or.inl hdot)))
        · exact Or.inr (Or.inr (Or.inr (Or.inr hwd)))
      cases p with
      | false =>
        rw [scanGo_neg] at hout
        cases u with
        | nil => exact Or.inl ⟨rfl, rfl⟩
        | cons x u' =>
          obtain ⟨hax, hout2⟩ :
              a = x ∧ scanGo try4 false K f (! isWordChar a) t = u' ++ K ++ v := by
            simpa using hout
          exact step_cons x u' rfl hax hout2
      | true =>
        cases htry : try4 K (a :: t) with
        | none =>
          cases u with
          | cons x u' =>
            rw [scanGo_nomatch htry] at hout
            obtain ⟨hax, hout2⟩ :
                a = x ∧ scanGo try4 false K f (! isWordChar a) t = u' ++ K ++ v := by
              simpa using hout
            exact step_cons x u' rfl hax hout2
          | nil =>
            rw [List.nil_append] at hout
            rcases scan4_block K hK hKw (f + 1) true (a :: t) v hout with
              ⟨s', hs, hv⟩ | ⟨c, v', hv, hc⟩
            · cases s' with
              | nil =>
                have hmat : try4 K (a :: t) = some (cs "dev." ++ K, []) := by
                  rw [show a :: t = K ++ [] by simpa using hs]
                  exact try4_some_of (Or.inl rfl)
                rw [hmat] at htry
                exact absurd htry (by simp)
              | cons c s'' =>
                have hcb : isWordChar c = true ∨ c = '.' := by
                  by_contra hno
                  push_neg at hno
                  have hcw : isWordChar c = false := by
                    cases hcw : isWordChar c with
                    | false => rfl
                    | true => exact absurd hcw hno.1
                  have hmat : try4 K (a :: t) = some (cs "dev." ++ K, c :: s'') := by
                    rw [hs]
                    exact try4_some_of (Or.inr ⟨c, s'', rfl, hcw, hno.2⟩)
                  rw [hmat] at htry
                  exact absurd htry (by simp)
                obtain ⟨f2, hf2⟩ : ∃ f2, f + 1 - K.length = f2 + 1 := by
                  have h1 : (a :: t).length = K.length + (c :: s'').length := by rw [hs]; simp
                  have h2 : (a :: t).length ≤ f + 1 := hlen
                  simp only [List.length_cons] at h1 h2
                  exact ⟨f - K.length, by omega⟩
                rw [hf2, scanGo_neg] at hv
                rcases hcb with hw | rfl
                · exact Or.inr (Or.inr (Or.inr (Or.inr ⟨c, _, hv, hw⟩)))
                · exact Or.inr (Or.inr (Or.inr (Or.inl ⟨_, hv⟩)))
            · rcases hc with hw | rfl
              · exact Or.inr (Or.inr (Or.inr (Or.inr ⟨c, v', hv, hw⟩)))
              · exact Or.inr (Or.inr (Or.inr (Or.inl ⟨v', hv⟩)))
        | some x =>
          obtain ⟨rest, hs, hx, _⟩ := try4_eq_some htry
          subst hx
          rw [scanGo_match htry] at hout
          have hlenrest : rest.length ≤ f := by
            have h1 : (a :: t).length = K.length + rest.length := by rw [hs]; simp
            have h2 : 1 ≤ K.length := by
              cases K with
              | nil => exact absurd rfl hK
              | cons _ _ => simp
            have h3 : (a :: t).length ≤ f + 1 := hlen
            simp only [List.length_cons] at h1 h3
            omega
          have hout' :
              'd' :: 'e' :: 'v' :: '.' :: (K ++ scanGo try4 false K f false rest)
                = u ++ K ++ v := by
            rw [← hout]
            simp [cs_dev]
          cases u with
          | nil =>
            rw [List.nil_append] at hout'
            have hsplit := @allword_block_split ['d', 'e', 'v'] _ _ _ (by decide) hKw hK hout'
            rcases hsplit with ⟨c, v', hv, hc⟩
            rcases hc with hw | rfl
            · exact Or.inr (Or.inr (Or.inr (Or.inr ⟨c, v', hv, hw⟩)))
            · exact Or.inr (Or.inr (Or.inr (Or.inl ⟨v', hv⟩)))
          | cons x1 u1 =>
            obtain ⟨h1, hout1⟩ :
                'd' = x1 ∧ 'e' :: 'v' :: '.' :: (K ++ scanGo try4 false K f false rest)
                  = u1 ++ (K ++ v) := by simpa using hout'
            subst h1
            cases u1 with
            | nil => exact Or.inr (Or.inr (Or.inl ⟨[], 'd', rfl, by decide⟩))
            | cons x2 u2 =>
              obtain ⟨h2, hout2⟩ :
                  'e' = x2 ∧ 'v' :: '.' :: (K ++ scanGo try4 false K f false rest)
                    = u2 ++ (K ++ v) := by simpa using hout1
              subst h2
              cases u2 with
              | nil => exact Or.inr (Or.inr (Or.inl ⟨['d'], 'e', rfl, by decide⟩))
              | cons x3 u3 =>
                obtain ⟨h3, hout3⟩ :
                    'v' = x3 ∧ '.' :: (K ++ scanGo try4 false K f false rest)
                      = u3 ++ (K ++ v) := by simpa using hout2
                subst h3
                cases u3 with
                | nil => exact Or.inr (Or.inr (Or.inl ⟨['d', 'e'], 'v', rfl, by decide⟩))
                | cons x4 u4 =>
                  obtain ⟨h4, hout4⟩ :
                      '.' = x4 ∧ K ++ scanGo try4 false K f false rest
                        = u4 ++ (K ++ v) := by simpa using hout3
                  subst h4
                  rcases List.append_eq_append_iff.mp hout4 with ⟨w', hu4, hO⟩ | ⟨z, hKz, _⟩
                  · rcases ih false rest hlenrest w' v
                      (by rw [hO]; exact (List.append_assoc w' K v).symm) with
                      ⟨rfl, _⟩ | ⟨z, hz⟩ | ⟨z, b, hz, hb⟩ | hdot | hwd
                    · rcases List.eq_nil_or_concat K with rfl | ⟨Ky, kb, hKy⟩
                      · exact absurd rfl hK
                      · have hkbw := hKw kb (by rw [hKy]; simp)
                        refine Or.inr (Or.inr (Or.inl
                          ⟨'d' :: 'e' :: 'v' :: '.' :: Ky, kb, ?_, hkbw⟩))
                        rw [hu4, hKy]
                        simp
                    · refine Or.inr (Or.inl ⟨'d' :: 'e' :: 'v' :: '.' :: (K ++ z), ?_⟩)
                      rw [hu4, hz]
                      simp
                    · refine Or.inr (Or.inr (Or.inl
                        ⟨'d' :: 'e' :: 'v' :: '.' :: (K ++ z), b, ?_, hb⟩))
                      rw [hu4, hz]
                      simp
                    · exact Or.inr (Or.inr (Or.inr (Or.inl hdot)))
                    · exact Or.inr (Or.inr (Or.inr (Or.inr hwd)))
                  · rcases List.eq_nil_or_concat u4 with rfl | ⟨y, b, rfl⟩
                    · exact Or.inr (Or.inl ⟨[], by simp [cs_dev]⟩)
                    · have hbK : b ∈ K := by rw [hKz]; simp
                      have hbw := hKw b hbK
                      exact Or.inr (Or.inr (Or.inl
                        ⟨'d' :: 'e' :: 'v' :: '.' :: y, b, by simp, hbw⟩))

/-! ### C3: exclusivity of qualification -/

/-- C3 counterexample — after a full pass over
`a = kPreviewTileZoom.x;` the content is unchanged: a whole-word occurrence
of the Registry identifier `kPreviewTileZoom` survives (preceded by a space,
which is not a word character, and not preceded by `dev.`), and the file
contains no declaration or construction site (`final` and `const` absent),
so the occurrence is not inside a demoted site either — the bare-usage rule
deliberately skips occurrences followed by a member-access dot. -/
theorem c3_exclusivity_counterexample :
    (process_file_content (cs "a = kPreviewTileZoom.x;")).1
        = cs "a = " ++ cs "kPreviewTileZoom" ++ cs ".x;" ∧
    (cs "kPreviewTileZoom") ∈ CONSTANTS ∧
    endsWithL (cs "dev.") (cs "a = ") = false ∧
    isWordChar ' ' = false ∧
    containsSub (cs "a = kPreviewTileZoom.x;") (cs "final") = false ∧
    containsSub (cs "a = kPreviewTileZoom.x;") (cs "const") = false := by decide

/-- C3 amended — per-identifier guardedness: after the Rewrite Engine runs
for an identifier on content that does not already contain its Qualified
Reference, every occurrence of the identifier in the output is immediately
preceded by `dev.`, or adjacent to a word character (so not a whole-word
occurrence), or immediately followed by a member-access dot (which the
bare-usage rule deliberately skips). -/
theorem c3_qualification_guarded (c K : List Char) (hK : K ≠ [])
    (hKw : K.all isWordChar = true)
    (hdev : containsSub c (cs "dev." ++ K) = false) :
    ∀ u v, (process_constant_in_content c K).1 = u ++ K ++ v →
      (∃ u', u = u' ++ cs "dev.") ∨
      (∃ u' a, u = u' ++ [a] ∧ isWordChar a = true) ∨
      (∃ v', v = '.' :: v') ∨
      (∃ a v', v = a :: v' ∧ isWordChar a = true) := by
  intro u v hout
  have hKw' : ∀ x ∈ K, isWordChar x = true := by
    intro x hx
    exact List.all_eq_true.mp hKw x hx
  cases h2 : containsSub c K with
  | false =>
    have hmain : (process_constant_in_content c K).1 = c := by
      simp [process_constant_in_content, hdev, h2]
    rw [hmain] at hout
    have : containsSub c K = true := by
      rw [hout]
      exact containsSub_parts u K v
    rw [this] at h2
    exact absurd h2 (by simp)
  | true =>
    have hmain : (process_constant_in_content c K).1
        = sub4 K (sub3 K (sub2 K (sub1 K c))) := by
      simp [process_constant_in_content, hdev, h2]
    rw [hmain] at hout
    simp only [sub4] at hout
    rcases scan4_guarded hK hKw' (sub3 K (sub2 K (sub1 K c))).length true
        (sub3 K (sub2 K (sub1 K c))) le_rfl u v hout with
      ⟨_, habs⟩ | hdev' | hw | hdot | hwd
    · exact absurd habs (by decide)
    · exact Or.inl hdev'
    · exact Or.inr (Or.inl hw)
    · exact Or.inr (Or.inr (Or.inl hdot))
    · exact Or.inr (Or.inr (Or.inr hwd))

/-- C3 amended witness: on `x = kClientName;` the engine produces
`x = dev.kClientName;`, and the occurrence of `kClientName` in the output is
indeed preceded by `dev.`. -/
theorem c3_qualification_guarded_witness :
    (∃ u', cs "x = dev." = u' ++ cs "dev.") ∨
    (∃ u' a, cs "x = dev." = u' ++ [a] ∧ isWordChar a = true) ∨
    (∃ v', cs ";" = '.' :: v') ∨
    (∃ a v', cs ";" = a :: v' ∧ isWordChar a = true) :=
  c3_qualification_guarded (cs "x = kClientName;") (cs "kClientName") (by decide) (by decide)
    (by decide) (cs "x = dev.") (cs ";") (by decide)

/-! ### C5: construction-site demotion -/

theorem word_not_space {a : Char} (h : isWordChar a = true) : isSpaceChar a = false := by
  cases hs : isSpaceChar a with
  | false => rfl
  | true =>
    exfalso
    have h6 : a = ' ' ∨ a = '\t' ∨ a = '\n' ∨ a = '\r' ∨ a = '\x0b' ∨ a = '\x0c' := by
      simpa [isSpaceChar, or_assoc] using hs
    rcases h6 with rfl | rfl | rfl | rfl | rfl | rfl <;> exact absurd h (by decide)

theorem takeWhile_all_append {p : Char → Bool} :
    ∀ (l r : List Char), (∀ a ∈ l, p a = true) →
      (l ++ r).takeWhile p = l ++ r.takeWhile p := by
  intro l
  induction l with
  | nil => intro r _; rfl
  | cons a l ih =>
    intro r h
    have ha : p a = true := h a (by simp)
    simp [List.takeWhile_cons, ha, ih r fun b hb => h b (by simp [hb])]

theorem dropWhile_all_append {p : Char → Bool} :
    ∀ (l r : List Char), (∀ a ∈ l, p a = true) →
      (l ++ r).dropWhile p = r.dropWhile p := by
  intro l
  induction l with
  | nil => intro r _; rfl
  | cons a l ih =>
    intro r h
    have ha : p a = true := h a (by simp)
    simp [List.dropWhile_cons, ha, ih r fun b hb => h b (by simp [hb])]

theorem scanGo_nil_any (tf : List Char → List Char → Option (List Char × List Char))
    (after : Bool) (K : List Char) : ∀ (f : Nat) (p : Bool), scanGo tf after K f p [] = [] := by
  intro f p
  cases f with
  | zero => rfl
  | succ f => rfl

/-- C5 counterexample — when `const` and the callee are separated by two
spaces, the construction-site rule matches the span but removes nothing (the
replacement searches for the single-space text `const Cone`), so after the
engine runs, the `const` qualifier is still present and only the argument was
qualified; the claim requires the leading `const ` to be removed. -/
theorem c5_construction_counterexample :
    process_constant_in_content (cs "const  Cone(kDirectionConeHalfAngle)")
      (cs "kDirectionConeHalfAngle")
    = (cs "const  Cone(dev.kDirectionConeHalfAngle)", true) ∧
    containsSub (cs "const  Cone(dev.kDirectionConeHalfAngle)") (cs "const") = true := by
  decide

theorem cs_const_space (X : List Char) : cs "const" ++ ' ' :: X = cs "const " ++ X := rfl

/-- Python's one-count replace at an occurrence that starts the string:
`(pat ++ t).replace(pat, repl, 1) = repl ++ t`. -/
theorem replaceFirstL_at_head {pat repl s t : List Char} (h : s = pat ++ t) :
    replaceFirstL pat repl s = repl ++ t := by
  have hp : pat.isPrefixOf s = true := (isPrefixOf_iff_exists _ _).mpr ⟨t, h⟩
  cases s with
  | nil =>
    rcases List.append_eq_nil.mp h.symm with ⟨rfl, rfl⟩
    simp [replaceFirstL]
  | cons c s' =>
    show (if pat.isPrefixOf (c :: s') = true then repl ++ (c :: s').drop pat.length
          else c :: replaceFirstL pat repl s') = repl ++ t
    rw [if_pos hp, h, List.drop_left]

/-- C5 amended — for a span in which `const` and the callee are separated by
exactly one space and the text before the first closing parenthesis contains
the identifier, the construction-site rule removes exactly the leading
`const ` and leaves callee and argument list unchanged. -/
theorem c5_construction_site_amended (K name seg : List Char)
    (hname : name ≠ []) (hnamew : ∀ a ∈ name, isWordChar a = true)
    (hseg : ∀ a ∈ seg, (a != ')') = true)
    (hKseg : containsSub seg K = true) :
    sub3 K (cs "const " ++ name ++ '(' :: (seg ++ [')']))
      = name ++ '(' :: (seg ++ [')']) := by
  obtain ⟨nh, nt, rfl⟩ : ∃ nh nt, name = nh :: nt := by
    cases name with
    | nil => exact absurd rfl hname
    | cons nh nt => exact ⟨nh, nt, rfl⟩
  have hntall : ∀ a ∈ nt, isWordChar a = true := fun a ha => hnamew a (by simp [ha])
  have hnhw : isWordChar nh = true := hnamew nh (by simp)
  have hnhsp : isSpaceChar nh = false := word_not_space hnhw
  have hsp : isSpaceChar ' ' = true := by decide
  have hpw : isWordChar '(' = false := by decide
  have hpsp : isSpaceChar '(' = false := by decide
  have E1 : List.drop 5 (cs "const " ++ nh :: (nt ++ '(' :: (seg ++ [')'])))
      = ' ' :: (nh :: (nt ++ '(' :: (seg ++ [')']))) := rfl
  have E2 : List.takeWhile isSpaceChar (' ' :: (nh :: (nt ++ '(' :: (seg ++ [')'])))) = [' '] := by
    simp [List.takeWhile_cons, hsp, hnhsp]
  have E3 : List.dropWhile isSpaceChar (' ' :: (nh :: (nt ++ '(' :: (seg ++ [')']))))
      = nh :: (nt ++ '(' :: (seg ++ [')'])) := by
    simp [List.dropWhile_cons, hsp, hnhsp]
  have E4 : List.takeWhile isWordChar (nh :: (nt ++ '(' :: (seg ++ [')']))) = nh :: nt := by
    rw [List.takeWhile_cons, if_pos hnhw,
      takeWhile_all_append nt ('(' :: (seg ++ [')'])) hntall]
    simp [List.takeWhile_cons, hpw]
  have E5 : List.dropWhile isWordChar (nh :: (nt ++ '(' :: (seg ++ [')'])))
      = '(' :: (seg ++ [')']) := by
    rw [List.dropWhile_cons, if_pos hnhw,
      dropWhile_all_append nt ('(' :: (seg ++ [')'])) hntall]
    simp [List.dropWhile_cons, hpw]
  have E6 : List.takeWhile isSpaceChar ('(' :: (seg ++ [')'])) = [] := by
    simp [List.takeWhile_cons, hpsp]
  have E7 : List.dropWhile isSpaceChar ('(' :: (seg ++ [')'])) = '(' :: (seg ++ [')']) := by
    simp [List.dropWhile_cons, hpsp]
  have E8 : List.takeWhile (fun c => c != ')') (seg ++ [')']) = seg := by
    rw [takeWhile_all_append seg [')'] hseg]
    simp [List.takeWhile_cons]
  have E9 : List.dropWhile (fun c => c != ')') (seg ++ [')']) = [')'] := by
    rw [dropWhile_all_append seg [')'] hseg]
    simp [List.dropWhile_cons]
  have hfull : replaceFirstL (cs "const " ++ nh :: nt) (nh :: nt)
      (cs "const " ++ nh :: (nt ++ '(' :: (seg ++ [')'])))
      = nh :: (nt ++ '(' :: (seg ++ [')'])) := by
    have harg : cs "const " ++ nh :: (nt ++ '(' :: (seg ++ [')']))
        = (cs "const " ++ nh :: nt) ++ '(' :: (seg ++ [')']) := by simp
    rw [replaceFirstL_at_head harg]
    simp
  have e1 : (cs "const").isPrefixOf (cs "const " ++ nh :: (nt ++ '(' :: (seg ++ [')'])))
      = true := rfl
  have htry3 : try3 K (cs "const " ++ nh :: (nt ++ '(' :: (seg ++ [')'])))
      = some (nh :: (nt ++ '(' :: (seg ++ [')'])), []) := by
    simp [try3, e1, E1, E2, E3, E4, E5, E6, E7, E8, E9, hKseg, cs_const_space, hfull]
  rw [show cs "const " ++ nh :: (nt ++ '(' :: (seg ++ [')']))
      = 'c' :: ('o' :: 'n' :: 's' :: 't' :: ' ' :: (nh :: (nt ++ '(' :: (seg ++ [')']))))
      from rfl] at htry3
  have hgoal : cs "const " ++ (nh :: nt) ++ '(' :: (seg ++ [')'])
      = 'c' :: ('o' :: 'n' :: 's' :: 't' :: ' ' :: (nh :: (nt ++ '(' :: (seg ++ [')'])))) := rfl
  rw [sub3, hgoal, List.length_cons, scanGo_match htry3, scanGo_nil_any, List.append_nil]
  simp

/-- C5 amended witness: the spec's own example span, with the single-space
separator, has its leading `const ` removed and nothing else changed. -/
theorem c5_construction_site_amended_witness :
    sub3 (cs "kDirectionConeHalfAngle")
      (cs "const " ++ cs "Cone" ++ '(' ::
        (cs "kDirectionConeHalfAngle, color: kDirectionConeColor" ++ [')']))
      = cs "Cone" ++ '(' ::
        (cs "kDirectionConeHalfAngle, color: kDirectionConeColor" ++ [')']) :=
  c5_construction_site_amended _ _ _ (by decide) (by decide) (by decide) (by decide)

/-! ### C8: file discovery -/

/-- C8 counterexample — a file named `my_dev_config.dart`, whose name is not
`dev_config.dart`, is nevertheless excluded, because the filter tests the
joined path for the substring `dev_config.dart`. -/
theorem c8_discovery_counterexample :
    find_dart_files [(cs "./lib", [cs "my_dev_config.dart"])] = [] ∧
    cs "my_dev_config.dart" ≠ cs "dev_config.dart" ∧
    endsWithL (cs ".dart") (cs "my_dev_config.dart") = true := by decide

theorem mem_find_dart_files_aux1 (root : List Char) :
    ∀ (files : List (List Char)) (acc : List (List Char)) (p : List Char),
      p ∈ List.foldl (fun acc2 file =>
          if endsWithL (cs ".dart") file then
            (let path := root ++ '/' :: file
             if ! containsSub path (cs "dev_config.dart") then acc2 ++ [path] else acc2)
          else acc2) acc files ↔
      (p ∈ acc ∨ ∃ file, file ∈ files ∧ endsWithL (cs ".dart") file = true ∧
        containsSub (root ++ '/' :: file) (cs "dev_config.dart") = false ∧
        p = root ++ '/' :: file) := by
  have step_mem : ∀ (acc2 : List (List Char)) (file p : List Char),
      p ∈ (if endsWithL (cs ".dart") file then
            (let path := root ++ '/' :: file
             if ! containsSub path (cs "dev_config.dart") then acc2 ++ [path] else acc2)
          else acc2) ↔
        (p ∈ acc2 ∨ (endsWithL (cs ".dart") file = true ∧
          containsSub (root ++ '/' :: file) (cs "dev_config.dart") = false ∧
          p = root ++ '/' :: file)) := by
    intro acc2 file p
    cases he : endsWithL (cs ".dart") file with
    | false => simp [he]
    | true =>
      cases hc : containsSub (root ++ '/' :: file) (cs "dev_config.dart") with
      | true => simp [he, hc]
      | false => simp [he, hc]
  intro files
  induction files with
  | nil => intro acc p; simp
  | cons file fs ih =>
    intro acc p
    simp only [List.foldl_cons]
    rw [ih, step_mem]
    constructor
    · rintro ((h | ⟨h1, h2, h3⟩) | ⟨f, hf, r1, r2, r3⟩)
      · exact Or.inl h
      · exact Or.inr ⟨file, by simp, h1, h2, h3⟩
      · exact Or.inr ⟨f, by simp [hf], r1, r2, r3⟩
    · rintro (h | ⟨f, hf, r1, r2, r3⟩)
      · exact Or.inl (Or.inl h)
      · rcases List.mem_cons.mp hf with rfl | hf'
        · exact Or.inl (Or.inr ⟨r1, r2, r3⟩)
        · exact Or.inr ⟨f, hf', r1, r2, r3⟩

theorem mem_find_dart_files_aux2 :
    ∀ (walk : List (List Char × List (List Char))) (acc : List (List Char)) (p : List Char),
      p ∈ List.foldl (fun accw rd => List.foldl (fun acc2 file =>
            if endsWithL (cs ".dart") file then
              (let path := rd.1 ++ '/' :: file
               if ! containsSub path (cs "dev_config.dart") then acc2 ++ [path] else acc2)
            else acc2) accw rd.2) acc walk ↔
      (p ∈ acc ∨ ∃ rd, rd ∈ walk ∧ ∃ file, file ∈ rd.2 ∧
        endsWithL (cs ".dart") file = true ∧
        containsSub (rd.1 ++ '/' :: file) (cs "dev_config.dart") = false ∧
        p = rd.1 ++ '/' :: file) := by
  intro walk
  induction walk with
  | nil => intro acc p; simp
  | cons rd walk' ih =>
    intro acc p
    simp only [List.foldl_cons]
    rw [ih, mem_find_dart_files_aux1 rd.1 rd.2 acc p]
    constructor
    · rintro ((h | ⟨f, hf, r1, r2, r3⟩) | ⟨rd', hrd, f, hf, r1, r2, r3⟩)
      · exact Or.inl h
      · exact Or.inr ⟨rd, by simp, f, hf, r1, r2, r3⟩
      · exact Or.inr ⟨rd', by simp [hrd], f, hf, r1, r2, r3⟩
    · rintro (h | ⟨rd', hrd, f, hf, r1, r2, r3⟩)
      · exact Or.inl (Or.inl h)
      · rcases List.mem_cons.mp hrd with rfl | hrd'
        · exact Or.inl (Or.inr ⟨f, hf, r1, r2, r3⟩)
        · exact Or.inr ⟨rd', hrd', f, hf, r1, r2, r3⟩

/-- C8 amended — file discovery returns exactly the joined paths of files
whose name ends in `.dart` and whose joined path does not contain the
substring `dev_config.dart`: so every file of the excluded constants file's
name is excluded anywhere in the tree, but so is any other file whose path
merely contains that name (such as `my_dev_config.dart`). -/
theorem c8_discovery_amended (walk : List (List Char × List (List Char))) (p : List Char) :
    p ∈ find_dart_files walk ↔
      ∃ root files file, (root, files) ∈ walk ∧ file ∈ files ∧
        endsWithL (cs ".dart") file = true ∧
        containsSub (root ++ '/' :: file) (cs "dev_config.dart") = false ∧
        p = root ++ '/' :: file := by
  rw [show find_dart_files walk = List.foldl (fun accw rd => List.foldl (fun acc2 file =>
        if endsWithL (cs ".dart") file then
          (let path := rd.1 ++ '/' :: file
           if ! containsSub path (cs "dev_config.dart") then acc2 ++ [path] else acc2)
        else acc2) accw rd.2) [] walk from rfl]
  rw [mem_find_dart_files_aux2 walk [] p]
  constructor
  · rintro (h | ⟨rd, hrd, f, hf, r1, r2, r3⟩)
    · exact absurd h (by simp)
    · exact ⟨rd.1, rd.2, f, by simpa using hrd, hf, r1, r2, r3⟩
  · rintro ⟨root, files, f, hrd, hf, r1, r2, r3⟩
    exact Or.inr ⟨(root, files), hrd, f, hf, r1, r2, r3⟩

/-! ### C9: run reporting -/

/-- C9 counterexample — with zero files found, `main` prints the no-files
notice and returns before the final summary, so no summary pair is reported;
with at least one file (even one whose read fails) the summary is reported. -/
theorem c9_no_summary_counterexample :
    main_output [] = none ∧ main_output [(none, false)] = some (0, 1) := by decide

theorem foldl_count_aux {β : Type} (P : β → Bool) :
    ∀ (l : List β) (n : Nat),
      l.foldl (fun nacc x => if P x then nacc + 1 else nacc) n = n + (l.filter P).length := by
  intro l
  induction l with
  | nil => intro n; simp
  | cons x l ih =>
    intro n
    cases hx : P x with
    | true =>
      simp only [List.foldl_cons, hx, if_true, List.filter_cons, ih]
      simp [hx]
      omega
    | false =>
      simp only [List.foldl_cons, hx, List.filter_cons, ih]
      simp [hx]

/-- C9 amended — whenever at least one file is found, `main` reports the
final summary: the count of files whose processing reported an update,
together with the total number of files examined (files with read or write
errors are still counted among those examined, and the run reaches the
summary in all such cases). -/
theorem c9_summary_amended (files : List (Option (List Char) × Bool)) (h : files ≠ []) :
    main_output files
      = some ((files.filter fun fw => (process_file fw.1 fw.2).1).length, files.length) := by
  have hrun : main_run files
      = (files.filter fun fw => (process_file fw.1 fw.2).1).length := by
    rw [show main_run files = files.foldl
        (fun nacc fw => if (fun fw => (process_file fw.1 fw.2).1) fw then nacc + 1 else nacc) 0
      from rfl]
    rw [foldl_count_aux (fun fw => (process_file fw.1 fw.2).1) files 0]
    exact Nat.zero_add _
  rw [main_output, if_neg (by simpa using h), hrun]

/-- C9 amended witness at a single file whose read fails: the summary is
still reported, with zero updates out of one file. -/
theorem c9_summary_amended_witness :
    main_output [(none, false)]
      = some ((([(none, false)] : List (Option (List Char) × Bool)).filter
          fun fw => (process_file fw.1 fw.2).1).length,
        ([(none, false)] : List (Option (List Char) × Bool)).length) :=
  c9_summary_amended [(none, false)] (by simp)

/-! ### C10: write failure is caught -/

/-- C10 — when a file's content is transformed in memory but the write
fails, `process_file` returns `false` (the file is counted as unchanged),
nothing is written, and the surrounding run is unaffected: the updated-files
tally over any run containing that file equals the tally with the file
removed. -/
theorem c10_write_failure (c : List Char) (fs gs : List (Option (List Char) × Bool))
    (h : (process_file_content c).1 ≠ c) :
    (process_file (some c) false).1 = false ∧
    (process_file (some c) false).2.2 = none ∧
    main_run (fs ++ (some c, false) :: gs) = main_run (fs ++ gs) := by
  have hb : ((process_file_content c).1 != c) = true := by simpa [bne_iff_ne] using h
  have h1 : process_file (some c) false = (false, true, none) := by
    simp [process_file, hb]
  refine ⟨by simp [h1], by simp [h1], ?_⟩
  simp [main_run, List.foldl_append, List.foldl_cons, h1]

/-- C7 witness at a concrete file. -/
theorem c7_write_iff_changed_witness :
    (process_file (some (cs "x")) true).2.1 = ((process_file_content (cs "x")).1 != cs "x") ∧
    (process_file (some (cs "x")) true).2.2 =
      (if ((process_file_content (cs "x")).1 != cs "x") && true
       then some (process_file_content (cs "x")).1 else none) :=
  c7_write_iff_changed (cs "x") true

/-- C8 amended witness: an ordinary `.dart` file is returned with its joined
path. -/
theorem c8_discovery_amended_witness :
    cs "./lib" ++ '/' :: cs "a.dart" ∈ find_dart_files [(cs "./lib", [cs "a.dart"])] :=
  (c8_discovery_amended [(cs "./lib", [cs "a.dart"])] (cs "./lib" ++ '/' :: cs "a.dart")).mpr
    ⟨cs "./lib", [cs "a.dart"], cs "a.dart", by simp, by simp, by decide, by decide, rfl⟩

/-- C10 witness at content that the full pass does transform. -/
theorem c10_write_failure_witness :
    (process_file (some (cs "a = kClientName;")) false).1 = false ∧
    (process_file (some (cs "a = kClientName;")) false).2.2 = none ∧
    main_run ([] ++ (some (cs "a = kClientName;"), false) :: []) = main_run ([] ++ []) :=
  c10_write_failure _ _ _ (by decide)

/-- A sanity check kept as a named fact: the `static const` declaration form
is in practice handled by pattern 1 (which matches the inner `const …`
span), before pattern 2 can see it, and it exhibits the same double
qualification as C1. -/
theorem static_const_subsumed :
    process_constant_in_content (cs "static const double kBar = kPreviewTileZoom;")
      (cs "kPreviewTileZoom")
    = (cs "static final double kBar = dev.dev.kPreviewTileZoom;", true) := by decide

/-- Sanity check: plain bare-usage qualification behaves as the spec's §8
example states. -/
theorem bare_usage_example :
    process_constant_in_content (cs "double a = kScrollWheelVelocity * 2;")
      (cs "kScrollWheelVelocity")
    = (cs "double a = dev.kScrollWheelVelocity * 2;", true) := by decide
